import Mathlib

/-
  Verification development for the gesedels key-value store.

  The Go source (gesedels.go) is shallowly embedded here:
  - Go strings and byte slices are modelled as lists of characters (`GoStr`);
    the repository only ever manipulates them as character/byte sequences.
  - `strings.ToLower` is modelled by mapping `Char.toLower` (the basic-latin
    case folding, which covers the behaviour relevant to the claims).
  - `strings.TrimSpace` is modelled by dropping characters of the ASCII
    whitespace class from both ends.
  - The bbolt database is modelled as an optional "main" bucket holding an
    association list of key/value pairs; `View`/`Update` transaction wrappers
    collapse to explicit state passing, and the size-limit errors that
    `Bucket.Put` can raise are modelled explicitly so that "the operation
    succeeds" is a real hypothesis.
-/

namespace Gesedels

/-- Go strings and byte slices, as character sequences. -/
abbrev GoStr := List Char

/-- Model of `strings.ToLower` (basic-latin folding, per `Char.toLower`). -/
def goToLower (s : GoStr) : GoStr := s.map Char.toLower

/-- Model of `unicode.IsSpace` on the ASCII whitespace class used by
`strings.TrimSpace`: space, tab, newline, vertical tab, form feed,
carriage return. -/
def goIsSpace (c : Char) : Bool :=
  c == ' ' || c == '\t' || c == '\n' || c == '\u000B' || c == '\u000C' || c == '\r'

/-- Model of `strings.TrimSpace`: drop whitespace from both ends. -/
def trimSpace (s : GoStr) : GoStr :=
  (s.dropWhile goIsSpace).rdropWhile goIsSpace

/-- `IsPrivate` from gesedels.go: `strings.HasPrefix(name, "__") &&
strings.HasSuffix(name, "__")`. -/
def IsPrivate (name : GoStr) : Bool :=
  (("__").data.isPrefixOf name) && (("__").data.isSuffixOf name)

/-- `PairKey` from gesedels.go: lower-case both inputs and join with ":". -/
def PairKey (user name : GoStr) : GoStr :=
  goToLower user ++ [':'] ++ goToLower name

/-- `PairValue` from gesedels.go: `strings.TrimSpace(text) + "\n"`. -/
def PairValue (text : GoStr) : GoStr :=
  trimSpace text ++ ['\n']

/-- A trimmed string: dropping whitespace from either end changes nothing. -/
def Trimmed (s : GoStr) : Prop :=
  s.dropWhile goIsSpace = s ∧ s.rdropWhile goIsSpace = s

/-- A stored value in normal form: some trimmed core followed by exactly one
trailing newline. -/
def NormalValue (v : GoStr) : Prop :=
  ∃ core, v = core ++ ['\n'] ∧ Trimmed core

/- Character-level facts about `Char.toLower`. -/

theorem char_toLower_toNat (c : Char) (h : 65 ≤ c.toNat ∧ c.toNat ≤ 90) :
    (Char.toLower c).toNat = c.toNat + 32 := by
  have hv : (c.toNat + 32).isValidChar := Or.inl (by omega)
  simp only [Char.toLower]
  rw [if_pos ⟨h.1, h.2⟩]
  rw [Char.ofNat, dif_pos hv]
  rfl

theorem char_toLower_of_not_upper (c : Char) (h : ¬ (65 ≤ c.toNat ∧ c.toNat ≤ 90)) :
    Char.toLower c = c := by
  simp only [Char.toLower]
  rw [if_neg]
  exact fun hc => h ⟨hc.1, hc.2⟩

theorem char_toLower_idem (c : Char) :
    Char.toLower (Char.toLower c) = Char.toLower c := by
  by_cases h : 65 ≤ c.toNat ∧ c.toNat ≤ 90
  · have h1 := char_toLower_toNat c h
    apply char_toLower_of_not_upper
    intro hc
    rw [h1] at hc
    omega
  · rw [char_toLower_of_not_upper c h, char_toLower_of_not_upper c h]

theorem goToLower_idem (s : GoStr) : goToLower (goToLower s) = goToLower s := by
  induction s with
  | nil => rfl
  | cons c t ih =>
    simp only [goToLower, List.map_cons, List.map_map] at ih ⊢
    rw [char_toLower_idem c, ih]

/- Facts about `trimSpace` and `PairValue`. -/

theorem dropWhile_head_false {p : Char → Bool} {x : Char} {xs : GoStr}
    (h : (x :: xs).dropWhile p = x :: xs) : p x = false := by
  have h0 := List.dropWhile_eq_self_iff.mp h (by simp)
  simpa using h0

theorem dropWhile_eq_self_of_prefix {p : Char → Bool} {l m : GoStr}
    (hl : l.dropWhile p = l) (hm : ∃ t, m ++ t = l) : m.dropWhile p = m := by
  obtain ⟨t, ht⟩ := hm
  cases m with
  | nil => rfl
  | cons x xs =>
    subst ht
    rw [List.cons_append] at hl
    have hx : p x = false := dropWhile_head_false hl
    simp [List.dropWhile_cons, hx]

theorem trimmed_trimSpace (s : GoStr) : Trimmed (trimSpace s) := by
  constructor
  · apply dropWhile_eq_self_of_prefix (l := s.dropWhile goIsSpace)
    · exact List.dropWhile_idempotent goIsSpace s
    · exact List.rdropWhile_prefix goIsSpace (s.dropWhile goIsSpace)
  · exact List.rdropWhile_idempotent goIsSpace (s.dropWhile goIsSpace)

theorem goIsSpace_newline : goIsSpace '\n' = true := rfl

theorem trimSpace_append_newline {t : GoStr} (ht : Trimmed t) :
    trimSpace (t ++ ['\n']) = t := by
  obtain ⟨h1, h2⟩ := ht
  unfold trimSpace
  cases t with
  | nil =>
    simp [List.dropWhile_cons_of_pos goIsSpace_newline, List.rdropWhile_nil]
  | cons x xs =>
    have hx : goIsSpace x = false := dropWhile_head_false h1
    rw [List.cons_append, List.dropWhile_cons_of_neg (by simp [hx])]
    rw [show x :: (xs ++ ['\n']) = (x :: xs) ++ ['\n'] from rfl]
    rw [List.rdropWhile_concat_pos goIsSpace (x :: xs) '\n' goIsSpace_newline, h2]

theorem normalValue_pairValue (v : GoStr) : NormalValue (PairValue v) :=
  ⟨trimSpace v, rfl, trimmed_trimSpace v⟩

theorem pairValue_idem (v : GoStr) : PairValue (PairValue v) = PairValue v := by
  unfold PairValue
  rw [trimSpace_append_newline (trimmed_trimSpace v)]

theorem trimSpace_of_all_space {v : GoStr} (h : ∀ c ∈ v, goIsSpace c) :
    trimSpace v = [] := by
  unfold trimSpace
  rw [List.dropWhile_eq_nil_iff.mpr h]
  exact List.rdropWhile_nil goIsSpace

/- Model of the bbolt store: the single "main" bucket as an association
list, `none` when the bucket has not been created yet. -/

/-- Contents of the "main" bucket: key/value pairs. -/
abbrev Bucket := List (GoStr × GoStr)

/-- The database state: `none` while the "main" bucket does not exist. -/
abbrev DB := Option Bucket

/-- Errors `bbolt.Bucket.Put` can raise on well-formed transactions. -/
inductive BoltErr where
  | keyRequired
  | keyTooLarge
  | valueTooLarge
deriving DecidableEq

/-- bbolt `MaxKeySize`. -/
def maxKeySize : Nat := 32768

/-- bbolt `MaxValueSize`. -/
def maxValueSize : Nat := 2 ^ 31 - 2

/-- `Bucket.Get`: value of the first matching key, `none` when absent. -/
def bucketGet (b : Bucket) (k : GoStr) : Option GoStr :=
  match b with
  | [] => none
  | (k2, v) :: rest => if k2 = k then some v else bucketGet rest k

/-- Overwrite-or-insert used to model a successful `Bucket.Put`. -/
def bucketPut (b : Bucket) (k v : GoStr) : Bucket :=
  match b with
  | [] => [(k, v)]
  | (k2, v2) :: rest =>
    if k2 = k then (k, v) :: rest else (k2, v2) :: bucketPut rest k v

/-- `Bucket.Delete`: remove the key if present. -/
def bucketDel (b : Bucket) (k : GoStr) : Bucket :=
  match b with
  | [] => []
  | (k2, v2) :: rest =>
    if k2 = k then bucketDel rest k else (k2, v2) :: bucketDel rest k

/-- `Bucket.Put` with its size-limit error checks. -/
def bboltPut (b : Bucket) (k v : GoStr) : Except BoltErr Bucket :=
  if k.length = 0 then Except.error BoltErr.keyRequired
  else if maxKeySize < k.length then Except.error BoltErr.keyTooLarge
  else if maxValueSize < v.length then Except.error BoltErr.valueTooLarge
  else Except.ok (bucketPut b k v)

/-- The pairs visible in the "main" bucket. -/
def dbPairs (db : DB) : Bucket := db.getD []

/-- `DeletePair` from gesedels.go: inside an update transaction, if the
"main" bucket exists delete the derived key, otherwise no-op. The returned
error is always nil for the modelled store. -/
def DeletePair (db : DB) (user name : GoStr) : DB × Option BoltErr :=
  match db with
  | none => (none, none)
  | some b => (some (bucketDel b (PairKey user name)), none)

/-- `GetPair` from gesedels.go: inside a view transaction, if the "main"
bucket exists look up the derived key; `pval` defaults to `""` and `okay`
to `false`. Returns (state, pval, okay, err). -/
def GetPair (db : DB) (user name : GoStr) : DB × GoStr × Bool × Option BoltErr :=
  match db with
  | none => (none, [], false, none)
  | some b =>
    match bucketGet b (PairKey user name) with
    | some v => (some b, v, true, none)
    | none => (some b, [], false, none)

/-- `SetPair` from gesedels.go: inside an update transaction, create the
"main" bucket if absent, then `Put` the derived key and normalized value.
On a put error the transaction rolls back and the state is unchanged. -/
def SetPair (db : DB) (user name pval : GoStr) : DB × Option BoltErr :=
  match bboltPut (dbPairs db) (PairKey user name) (PairValue pval) with
  | Except.ok b2 => (some b2, none)
  | Except.error e => (db, some e)

/- Bucket lemmas. -/

theorem bucketGet_put_self (b : Bucket) (k v : GoStr) :
    bucketGet (bucketPut b k v) k = some v := by
  induction b with
  | nil => simp [bucketPut, bucketGet]
  | cons p rest ih =>
    obtain ⟨k2, v2⟩ := p
    by_cases h : k2 = k
    · simp [bucketPut, h, bucketGet]
    · simp [bucketPut, h, bucketGet, ih]

theorem bucketGet_del_self (b : Bucket) (k : GoStr) :
    bucketGet (bucketDel b k) k = none := by
  induction b with
  | nil => simp [bucketDel, bucketGet]
  | cons p rest ih =>
    obtain ⟨k2, v2⟩ := p
    by_cases h : k2 = k
    · simp [bucketDel, h, ih]
    · simp [bucketDel, h, bucketGet, ih]

theorem mem_bucketPut {b : Bucket} {k v : GoStr} {p : GoStr × GoStr}
    (h : p ∈ bucketPut b k v) : p = (k, v) ∨ p ∈ b := by
  induction b with
  | nil => simpa [bucketPut] using h
  | cons q rest ih =>
    obtain ⟨k2, v2⟩ := q
    by_cases hk : k2 = k
    · simp only [bucketPut, if_pos hk, List.mem_cons] at h
      rcases h with h | h
      · exact Or.inl h
      · exact Or.inr (List.mem_cons_of_mem _ h)
    · simp only [bucketPut, if_neg hk, List.mem_cons] at h
      rcases h with h | h
      · exact Or.inr (h ▸ List.mem_cons_self _ _)
      · rcases ih h with h2 | h2
        · exact Or.inl h2
        · exact Or.inr (List.mem_cons_of_mem _ h2)

theorem mem_bucketDel {b : Bucket} {k : GoStr} {p : GoStr × GoStr}
    (h : p ∈ bucketDel b k) : p ∈ b := by
  induction b with
  | nil => simp [bucketDel] at h
  | cons q rest ih =>
    obtain ⟨k2, v2⟩ := q
    by_cases hk : k2 = k
    · simp only [bucketDel, if_pos hk] at h
      exact List.mem_cons_of_mem _ (ih h)
    · simp only [bucketDel, if_neg hk, List.mem_cons] at h
      rcases h with h | h
      · exact h ▸ List.mem_cons_self _ _
      · exact List.mem_cons_of_mem _ (ih h)

/- Store-level lemmas. -/

theorem bboltPut_ok {b b2 : Bucket} {k v : GoStr}
    (h : bboltPut b k v = Except.ok b2) : b2 = bucketPut b k v := by
  unfold bboltPut at h
  split at h
  · exact absurd h (by simp)
  · split at h
    · exact absurd h (by simp)
    · split at h
      · exact absurd h (by simp)
      · simpa using h.symm

theorem setPair_getPair (db : DB) (user name pval : GoStr)
    (h : (SetPair db user name pval).2 = none) :
    GetPair (SetPair db user name pval).1 user name =
      ((SetPair db user name pval).1, PairValue pval, true, none) := by
  unfold SetPair at h ⊢
  cases hput : bboltPut (dbPairs db) (PairKey user name) (PairValue pval) with
  | error e => rw [hput] at h; simp at h
  | ok b2 =>
    have hb2 := bboltPut_ok hput
    simp only [hput]
    simp [GetPair, hb2, bucketGet_put_self]

/- The reachable-state model for the invariant claim: any interleaving of
`SetPair` and `DeletePair` calls starting from the empty store. -/

/-- One mutating pair-store call. -/
inductive Op where
  | set (user name pval : GoStr)
  | del (user name : GoStr)

/-- Apply one call to the database state (a failed `SetPair` rolls back). -/
def applyOp (db : DB) (op : Op) : DB :=
  match op with
  | Op.set u n v => (SetPair db u n v).1
  | Op.del u n => (DeletePair db u n).1

/-- Run a sequence of calls from the empty store. -/
def runOps (ops : List Op) : DB := ops.foldl applyOp none

/-- Every value in the bucket is in normal form. -/
def DBInv (db : DB) : Prop := ∀ p ∈ dbPairs db, NormalValue p.2

theorem dbInv_applyOp {db : DB} (h : DBInv db) (op : Op) : DBInv (applyOp db op) := by
  cases op with
  | set u n v =>
    simp only [applyOp, SetPair]
    cases hput : bboltPut (dbPairs db) (PairKey u n) (PairValue v) with
    | error e => exact h
    | ok b2 =>
      intro p hp
      simp only [dbPairs, Option.getD_some] at hp
      rw [bboltPut_ok hput] at hp
      rcases mem_bucketPut hp with h2 | h2
      · rw [h2]
        exact normalValue_pairValue v
      · exact h p h2
  | del u n =>
    cases db with
    | none => exact h
    | some b =>
      intro p hp
      simp only [applyOp, DeletePair, dbPairs, Option.getD_some] at hp
      exact h p (mem_bucketDel hp)

theorem dbInv_foldl (l : List Op) (db : DB) (h : DBInv db) :
    DBInv (l.foldl applyOp db) := by
  induction l generalizing db with
  | nil => exact h
  | cons op rest ih => exact ih _ (dbInv_applyOp h op)

theorem dbInv_runOps (ops : List Op) : DBInv (runOps ops) := by
  apply dbInv_foldl
  intro p hp
  simp [dbPairs] at hp

/- Splitting a key at its separator when the user part is colon-free. -/

theorem append_colon_inj {a c b d : GoStr} (ha : ':' ∉ a) (hc : ':' ∉ c)
    (h : a ++ ':' :: b = c ++ ':' :: d) : a = c ∧ b = d := by
  induction a generalizing c with
  | nil =>
    cases c with
    | nil => simpa using h
    | cons y ys =>
      simp only [List.nil_append, List.cons_append, List.cons.injEq] at h
      exact absurd (h.1 ▸ List.mem_cons_self y ys) (h.1 ▸ hc)
  | cons x xs ih =>
    cases c with
    | nil =>
      simp only [List.cons_append, List.nil_append, List.cons.injEq] at h
      exact absurd (h.1 ▸ List.mem_cons_self x xs) (h.1 ▸ ha)
    | cons y ys =>
      simp only [List.cons_append, List.cons.injEq] at h
      have ha2 : ':' ∉ xs := fun hm => ha (List.mem_cons_of_mem x hm)
      have hc2 : ':' ∉ ys := fun hm => hc (List.mem_cons_of_mem y hm)
      obtain ⟨h1, h2⟩ := ih ha2 hc2 h.2
      exact ⟨by rw [h.1, h1], h2⟩

/- Model of the fmt verbs used by the repository: `%d` on ints and `%s` on
strings, other characters copied through. -/

/-- An argument passed to a formatting call. -/
inductive Arg where
  | i (n : Int)
  | s (t : GoStr)

/-- Decimal digit character. -/
def digitChar (d : Nat) : Char := Char.ofNat (48 + d % 10)

/-- Decimal digits, fuel-bounded so the definition is structural; the fuel
`n + 1` always suffices since the argument shrinks by a factor of ten. -/
def natCharsCore (fuel n : Nat) : GoStr :=
  match fuel with
  | 0 => []
  | fuel2 + 1 =>
    if n < 10 then [digitChar n]
    else natCharsCore fuel2 (n / 10) ++ [digitChar (n % 10)]

/-- Decimal digits of a natural number, most significant first. -/
def natChars (n : Nat) : GoStr := natCharsCore (n + 1) n

/-- `%d` rendering of an int. -/
def intChars (i : Int) : GoStr :=
  if i < 0 then '-' :: natChars i.natAbs else natChars i.toNat

/-- The formatting loop of `fmt.Sprintf`/`fmt.Fprintf` restricted to the
verbs the repository uses. -/
def sprintf (form : GoStr) (args : List Arg) : GoStr :=
  match form, args with
  | [], _ => []
  | '%' :: 'd' :: rest, Arg.i n :: args2 => intChars n ++ sprintf rest args2
  | '%' :: 's' :: rest, Arg.s t :: args2 => t ++ sprintf rest args2
  | c :: rest, args2 => c :: sprintf rest args2

/-- State of an `http.ResponseWriter`: content type header, status code,
body written so far. -/
structure RespWriter where
  ct : Option GoStr
  status : Option Int
  body : GoStr

/-- A fresh response writer. -/
def emptyWriter : RespWriter := RespWriter.mk none none []

/-- The content type set by `WriteHTTP`. -/
def plainCT : GoStr := ("text/plain; charset=utf-8").data

/-- `WriteHTTP` from gesedels.go: set the content type, write the status
header, then `fmt.Fprintf(w, form+"\n", elems...)`. -/
def WriteHTTP (w : RespWriter) (code : Int) (form : GoStr) (elems : List Arg) :
    RespWriter :=
  RespWriter.mk (some plainCT) (some code) (w.body ++ sprintf (form ++ ['\n']) elems)

/-- `WriteError` from gesedels.go: prefix the format string with
`"server error %d: %s"` applied to the code and the caller's format. -/
def WriteError (w : RespWriter) (code : Int) (form : GoStr) (elems : List Arg) :
    RespWriter :=
  WriteHTTP w code (sprintf (("server error %d: %s").data) [Arg.i code, Arg.s form]) elems

/-- `WriteFailure` from gesedels.go: same envelope with "client error". -/
def WriteFailure (w : RespWriter) (code : Int) (form : GoStr) (elems : List Arg) :
    RespWriter :=
  WriteHTTP w code (sprintf (("client error %d: %s").data) [Arg.i code, Arg.s form]) elems

/- Formatting lemmas. -/

theorem char_toNat_ofNat {n : Nat} (h : n < 55296) : (Char.ofNat n).toNat = n := by
  have hv : n.isValidChar := Or.inl h
  rw [Char.ofNat, dif_pos hv]
  rfl

theorem digitChar_ne_percent (d : Nat) : digitChar d ≠ '%' := by
  intro h
  have h2 := congrArg Char.toNat h
  rw [digitChar, char_toNat_ofNat (by omega)] at h2
  have h3 : ('%').toNat = 37 := rfl
  omega

theorem percent_notMem_natCharsCore (fuel n : Nat) : '%' ∉ natCharsCore fuel n := by
  induction fuel generalizing n with
  | zero => simp [natCharsCore]
  | succ fuel2 ih =>
    unfold natCharsCore
    split
    · intro hmem
      rw [List.mem_singleton] at hmem
      exact digitChar_ne_percent n hmem.symm
    · intro hmem
      rcases List.mem_append.mp hmem with h | h
      · exact ih (n / 10) h
      · rw [List.mem_singleton] at h
        exact digitChar_ne_percent _ h.symm

theorem percent_notMem_intChars (i : Int) : '%' ∉ intChars i := by
  unfold intChars
  split
  · intro hmem
    rcases List.mem_cons.mp hmem with h | h
    · exact absurd h (by decide)
    · exact percent_notMem_natCharsCore _ _ h
  · exact percent_notMem_natCharsCore _ _

theorem sprintf_cons_stuck (c : Char) (rest : GoStr) (args : List Arg)
    (h1 : ∀ (r : GoStr) (n : Int) (a2 : List Arg),
      c = '%' → rest = 'd' :: r → args = Arg.i n :: a2 → False)
    (h2 : ∀ (r t : GoStr) (a2 : List Arg),
      c = '%' → rest = 's' :: r → args = Arg.s t :: a2 → False) :
    sprintf (c :: rest) args = c :: sprintf rest args := by
  conv_lhs => rw [sprintf.eq_def]
  split <;> simp_all

theorem sprintf_cons_ne (c : Char) (rest : GoStr) (args : List Arg) (hc : c ≠ '%') :
    sprintf (c :: rest) args = c :: sprintf rest args :=
  sprintf_cons_stuck c rest args (fun _ _ _ h => absurd h hc) (fun _ _ _ h => absurd h hc)

theorem sprintf_append_newline (form : GoStr) (args : List Arg) :
    sprintf (form ++ ['\n']) args = sprintf form args ++ ['\n'] := by
  induction form, args using sprintf.induct with
  | case1 args =>
    simp only [List.nil_append]
    rw [sprintf_cons_ne _ _ _ (by decide)]
    rfl
  | case2 rest n args2 ih =>
    rw [show ('%' :: 'd' :: rest) ++ ['\n'] = '%' :: 'd' :: (rest ++ ['\n']) from rfl]
    rw [show sprintf ('%' :: 'd' :: (rest ++ ['\n'])) (Arg.i n :: args2) =
      intChars n ++ sprintf (rest ++ ['\n']) args2 from rfl]
    rw [ih]
    rw [show sprintf ('%' :: 'd' :: rest) (Arg.i n :: args2) =
      intChars n ++ sprintf rest args2 from rfl]
    simp [List.append_assoc]
  | case3 rest t args2 ih =>
    rw [show ('%' :: 's' :: rest) ++ ['\n'] = '%' :: 's' :: (rest ++ ['\n']) from rfl]
    rw [show sprintf ('%' :: 's' :: (rest ++ ['\n'])) (Arg.s t :: args2) =
      t ++ sprintf (rest ++ ['\n']) args2 from rfl]
    rw [ih]
    rw [show sprintf ('%' :: 's' :: rest) (Arg.s t :: args2) =
      t ++ sprintf rest args2 from rfl]
    simp [List.append_assoc]
  | case4 c rest args2 h1 h2 ih =>
    rw [List.cons_append]
    have h1b : ∀ (r : GoStr) (n : Int) (a2 : List Arg),
        c = '%' → rest ++ ['\n'] = 'd' :: r → args2 = Arg.i n :: a2 → False := by
      intro r n a2 hc hr ha
      cases rest with
      | nil => simp at hr
      | cons e rest2 =>
        simp only [List.cons_append, List.cons.injEq] at hr
        exact h1 rest2 n a2 hc (by rw [hr.1]) ha
    have h2b : ∀ (r t : GoStr) (a2 : List Arg),
        c = '%' → rest ++ ['\n'] = 's' :: r → args2 = Arg.s t :: a2 → False := by
      intro r t a2 hc hr ha
      cases rest with
      | nil => simp at hr
      | cons e rest2 =>
        simp only [List.cons_append, List.cons.injEq] at hr
        exact h2 rest2 t a2 hc (by rw [hr.1]) ha
    rw [sprintf_cons_stuck c (rest ++ ['\n']) args2 h1b h2b, ih,
      sprintf_cons_stuck c rest args2 h1 h2]
    rfl

theorem sprintf_append_of_percent_notMem (pre suf : GoStr) (args : List Arg)
    (hp : '%' ∉ pre) : sprintf (pre ++ suf) args = pre ++ sprintf suf args := by
  induction pre with
  | nil => simp
  | cons c rest ih =>
    have hc : c ≠ '%' := fun h => hp (h ▸ List.mem_cons_self c rest)
    have hr : '%' ∉ rest := fun h => hp (List.mem_cons_of_mem c h)
    rw [List.cons_append, sprintf_cons_ne _ _ _ hc, ih hr]
    rfl

/-- Substituting the code and the caller's format into a percent-free
envelope word, as `WriteError`/`WriteFailure` do. -/
theorem sprintf_envelope (pre : GoStr) (hp : '%' ∉ pre) (code : Int) (form : GoStr) :
    sprintf (pre ++ '%' :: 'd' :: (':' :: ' ' :: '%' :: 's' :: []))
        [Arg.i code, Arg.s form] =
      pre ++ intChars code ++ ':' :: ' ' :: form := by
  rw [sprintf_append_of_percent_notMem _ _ _ hp]
  rw [show sprintf ('%' :: 'd' :: (':' :: ' ' :: '%' :: 's' :: [])) [Arg.i code, Arg.s form] =
    intChars code ++ sprintf (':' :: ' ' :: '%' :: 's' :: []) [Arg.s form] from rfl]
  rw [sprintf_cons_ne _ _ _ (by decide), sprintf_cons_ne _ _ _ (by decide)]
  rw [show sprintf ('%' :: 's' :: []) [Arg.s form] = form ++ sprintf [] [] from rfl]
  rw [show sprintf [] ([] : List Arg) = [] from rfl]
  simp [List.append_assoc]

/-- The body written by `WriteHTTP` on top of an envelope produced by
`WriteError`/`WriteFailure`. -/
theorem writeHTTP_envelope_body (w : RespWriter) (pre : GoStr) (hp : '%' ∉ pre)
    (code : Int) (form : GoStr) (elems : List Arg) :
    (WriteHTTP w code
        (sprintf (pre ++ '%' :: 'd' :: (':' :: ' ' :: '%' :: 's' :: []))
          [Arg.i code, Arg.s form]) elems).body =
      w.body ++ pre ++ intChars code ++ ':' :: ' ' :: sprintf form elems ++ ['\n'] := by
  unfold WriteHTTP
  rw [sprintf_envelope pre hp code form]
  have hp2 : '%' ∉ pre ++ intChars code ++ ':' :: ' ' :: [] := by
    intro hmem
    rcases List.mem_append.mp hmem with h | h
    · rcases List.mem_append.mp h with h2 | h2
      · exact hp h2
      · exact percent_notMem_intChars code h2
    · exact absurd h (by decide)
  have hsplit : (pre ++ intChars code ++ ':' :: ' ' :: form) ++ ['\n'] =
      (pre ++ intChars code ++ ':' :: ' ' :: []) ++ (form ++ ['\n']) := by
    simp
  simp only [hsplit]
  rw [sprintf_append_of_percent_notMem _ _ _ hp2]
  rw [sprintf_append_newline]
  simp [List.append_assoc]

/- The claims. -/

/-- Claim C1, as stated, is false: `PairKey` is not injective over the
case-folded input domain, because a `:` inside the user identifier is
indistinguishable from the separator. Concretely, the distinct case-folded
identities ("a:b", "c") and ("a", "b:c") share the key "a:b:c". -/
theorem pairKey_injective_counterexample :
    ¬ (∀ u1 n1 u2 n2 : GoStr,
        (goToLower u1, goToLower n1) ≠ (goToLower u2, goToLower n2) →
        PairKey u1 n1 ≠ PairKey u2 n2) := by
  intro h
  exact h (("a:b").data) (("c").data) (("a").data) (("b:c").data)
    (by decide) (by decide)

/-- Claim C1 (amended): `PairKey` is injective over the case-folded input
domain provided the case-folded user identifiers contain no ':' character:
for two such pairs with distinct case-folded identities the keys differ. -/
theorem pairKey_injective_of_colonFree (u1 n1 u2 n2 : GoStr)
    (h1 : ':' ∉ goToLower u1) (h2 : ':' ∉ goToLower u2)
    (hne : (goToLower u1, goToLower n1) ≠ (goToLower u2, goToLower n2)) :
    PairKey u1 n1 ≠ PairKey u2 n2 := by
  intro heq
  unfold PairKey at heq
  rw [List.append_assoc, List.append_assoc] at heq
  obtain ⟨ha, hb⟩ := append_colon_inj h1 h2 heq
  have hb2 : goToLower n1 = goToLower n2 := by simpa using hb
  exact hne (by rw [ha, hb2])

/-- Concrete instance of the amended claim C1. -/
theorem pairKey_injective_of_colonFree_witness :
    PairKey (("A").data) (("b").data) ≠ PairKey (("c").data) (("d").data) :=
  pairKey_injective_of_colonFree (("A").data) (("b").data) (("c").data) (("d").data)
    (by decide) (by decide) (by decide)

/-- Claim C2: when `SetPair` succeeds, `GetPair` on the resulting state with
the same identifiers returns the normalized value `PairValue v`, found
`true`, and a nil error. -/
theorem setPair_then_getPair (db : DB) (user name pval : GoStr)
    (h : (SetPair db user name pval).2 = none) :
    GetPair (SetPair db user name pval).1 user name =
      ((SetPair db user name pval).1, PairValue pval, true, none) :=
  setPair_getPair db user name pval h

/-- Concrete instance of claim C2, the spec's scenario: after
`Set(db,"0000","alpha","  Alpha.  ")` the stored value reads back as
`"Alpha.\n"` with found = true and nil error. -/
theorem setPair_then_getPair_witness :
    GetPair (SetPair none (("0000").data) (("alpha").data) (("  Alpha.  ").data)).1
        (("0000").data) (("alpha").data) =
      ((SetPair none (("0000").data) (("alpha").data) (("  Alpha.  ").data)).1,
        PairValue (("  Alpha.  ").data), true, none) :=
  setPair_then_getPair none (("0000").data) (("alpha").data) (("  Alpha.  ").data)
    (by decide)

/-- Claim C3: absence of a pair is never an error. `GetPair` returns
`("", false, nil)` when the "main" bucket does not exist, when the bucket
exists but the derived key is absent, and immediately after a `DeletePair`
of the same user and name. -/
theorem getPair_absent_not_error (db : DB) (u n : GoStr) (buck : Bucket) :
    GetPair none u n = (none, [], false, none) ∧
    (bucketGet buck (PairKey u n) = none →
      GetPair (some buck) u n = (some buck, [], false, none)) ∧
    GetPair (DeletePair db u n).1 u n = ((DeletePair db u n).1, [], false, none) := by
  refine ⟨rfl, ?_, ?_⟩
  · intro h
    simp [GetPair, h]
  · cases db with
    | none => rfl
    | some b => simp [DeletePair, GetPair, bucketGet_del_self]

/-- Concrete instance of claim C3: a lookup of an absent key in a
non-empty bucket. -/
theorem getPair_absent_not_error_witness :
    GetPair (some [((("x").data), (("y\n").data))]) (("a").data) (("b").data) =
      (some [((("x").data), (("y\n").data))], [], false, none) :=
  (getPair_absent_not_error none (("a").data) (("b").data)
    [((("x").data), (("y\n").data))]).2.1 (by decide)

/-- Claim C4: in every state reachable from the empty store by `SetPair`
and `DeletePair` calls, every stored value is a trimmed core followed by
exactly one trailing newline. -/
theorem runOps_values_normalized (ops : List Op) (p : GoStr × GoStr)
    (hp : p ∈ dbPairs (runOps ops)) :
    ∃ core, p.2 = core ++ ['\n'] ∧ Trimmed core :=
  dbInv_runOps ops p hp

/-- Concrete instance of claim C4: the value stored by one `SetPair`. -/
theorem runOps_values_normalized_witness :
    ∃ core, ((("a:b").data, ("hi\n").data) : GoStr × GoStr).2 = core ++ ['\n'] ∧
      Trimmed core :=
  runOps_values_normalized [Op.set (("a").data) (("b").data) ((" hi ").data)]
    ((("a:b").data), (("hi\n").data)) (by decide)

/-- Claim C5: the error writers produce exactly the specified plaintext
envelope, with the status code written to the response header:
`WriteError` writes "server error <code>: <message>\n" and `WriteFailure`
writes "client error <code>: <message>\n", where the message is the
formatted caller content and the body ends in exactly one newline beyond
it; in particular `WriteError(w, 500, "%s", "test")` yields status 500 and
body "server error 500: test\n". -/
theorem writeError_writeFailure_envelope (w : RespWriter) (code : Int)
    (form : GoStr) (elems : List Arg) :
    (WriteError w code form elems).status = some code ∧
    (WriteError w code form elems).body =
      w.body ++ ("server error ").data ++ intChars code ++
        ':' :: ' ' :: sprintf form elems ++ ['\n'] ∧
    (WriteFailure w code form elems).status = some code ∧
    (WriteFailure w code form elems).body =
      w.body ++ ("client error ").data ++ intChars code ++
        ':' :: ' ' :: sprintf form elems ++ ['\n'] ∧
    (WriteError emptyWriter 500 (("%s").data) [Arg.s (("test").data)]).body =
      ("server error 500: test\n").data := by
  refine ⟨rfl, ?_, rfl, ?_, by decide⟩
  · unfold WriteError
    rw [show (("server error %d: %s").data : GoStr) =
      ("server error ").data ++ '%' :: 'd' :: (':' :: ' ' :: '%' :: 's' :: [])
      from by decide]
    rw [writeHTTP_envelope_body w (("server error ").data) (by decide) code form elems]
  · unfold WriteFailure
    rw [show (("client error %d: %s").data : GoStr) =
      ("client error ").data ++ '%' :: 'd' :: (':' :: ' ' :: '%' :: 's' :: [])
      from by decide]
    rw [writeHTTP_envelope_body w (("client error ").data) (by decide) code form elems]

/-- Claim C6: key derivation is case-insensitive — `PairKey` of any casing
equals `PairKey` of the lower-cased identifiers — and the key is exactly
the lower-cased user, a ':' separator, and the lower-cased name. -/
theorem pairKey_case_insensitive (user name : GoStr) :
    PairKey user name = PairKey (goToLower user) (goToLower name) ∧
    PairKey user name = goToLower user ++ [':'] ++ goToLower name := by
  constructor
  · unfold PairKey
    rw [goToLower_idem, goToLower_idem]
  · rfl

/-- Claim C7: `PairValue` always yields a trimmed core plus exactly one
trailing newline, is idempotent, and maps empty or all-whitespace input to
the single byte "\n". -/
theorem pairValue_normalization (v : GoStr) :
    NormalValue (PairValue v) ∧
    PairValue (PairValue v) = PairValue v ∧
    ((∀ c ∈ v, goIsSpace c) → PairValue v = ['\n']) := by
  refine ⟨normalValue_pairValue v, pairValue_idem v, ?_⟩
  intro h
  unfold PairValue
  rw [trimSpace_of_all_space h]
  rfl

/-- Concrete instance of claim C7: an all-whitespace input normalizes to a
single newline. -/
theorem pairValue_normalization_witness :
    PairValue ((" \t ").data) = ['\n'] :=
  (pairValue_normalization ((" \t ").data)).2.2 (by decide)

/-- Claim C8: `IsPrivate` holds exactly when the name both starts and ends
with two underscores, overlapping prefixes and suffixes included, with the
spec's concrete cases. -/
theorem isPrivate_spec (name : GoStr) :
    (IsPrivate name = true ↔
      ((∃ t, name = '_' :: '_' :: t) ∧ (∃ u, name = u ++ ['_', '_']))) ∧
    IsPrivate (("__test__").data) = true ∧
    IsPrivate (("____").data) = true ∧
    IsPrivate (("__test").data) = false ∧
    IsPrivate (("test__").data) = false ∧
    IsPrivate (("test").data) = false := by
  refine ⟨?_, by decide, by decide, by decide, by decide, by decide⟩
  unfold IsPrivate
  rw [Bool.and_eq_true, List.isPrefixOf_iff_prefix, List.isSuffixOf_iff_suffix]
  constructor
  · rintro ⟨⟨t, ht⟩, ⟨u, hu⟩⟩
    exact ⟨⟨t, ht.symm⟩, ⟨u, hu.symm⟩⟩
  · rintro ⟨⟨t, ht⟩, ⟨u, hu⟩⟩
    exact ⟨⟨t, ht.symm⟩, ⟨u, hu.symm⟩⟩

/-- Claim C9: `GetPair` never mutates the database — the state it returns
is the state it was given, on every branch. -/
theorem getPair_preserves_state (db : DB) (user name : GoStr) :
    (GetPair db user name).1 = db := by
  cases db with
  | none => rfl
  | some b =>
    simp only [GetPair]
    cases bucketGet b (PairKey user name) <;> rfl

/-- Claim C10: the pair store performs no identifier validation: with empty
user and name the derived key is the single byte ":", and a successful
`SetPair` followed by `GetPair` behaves exactly as for non-empty
identifiers. -/
theorem pairStore_accepts_empty_identifiers :
    PairKey [] [] = [':'] ∧
    ∀ (db : DB) (v : GoStr), (SetPair db [] [] v).2 = none →
      GetPair (SetPair db [] [] v).1 [] [] =
        ((SetPair db [] [] v).1, PairValue v, true, none) := by
  refine ⟨rfl, ?_⟩
  intro db v h
  exact setPair_getPair db [] [] v h

/-- Concrete instance of claim C10: storing and reading back under empty
identifiers on the empty store. -/
theorem pairStore_accepts_empty_identifiers_witness :
    GetPair (SetPair none [] [] (("x").data)).1 [] [] =
      ((SetPair none [] [] (("x").data)).1, PairValue (("x").data), true, none) :=
  pairStore_accepts_empty_identifiers.2 none (("x").data) (by decide)

end Gesedels
